import Mathlib

/-
  Shallow embedding of ClientContext.h (TCP connection handling on top of
  lwIP) for the arduino-pico core.

  Modelling conventions:
  * Bytes are `Nat`; a pbuf segment is a `List Nat` (its `payload` and `len`);
    a pbuf chain (`pbuf*` with its `next` links) is a `List (List Nat)`.
    `tot_len` of a chain is the sum of the segment lengths.
  * The receive machinery of the class (`_rx_buf`, `_rx_buf_offset`) is the
    structure `Rx`.  `const` methods are embedded as functions returning the
    (unchanged) state together with their value.
  * Calls into the lwIP stack that only inform it of progress
    (`tcp_recved`, `tcp_setprio`, priorities, mutexes, DEBUGV) are not
    modelled; calls with an observable teardown effect (`tcp_abort`,
    `tcp_close`, the discard callback) are recorded in an event trace.
  * Machine integers: quantities that never overflow their C types (`u16`
    segment lengths, `u32` keep-alive millisecond values built from `u16`
    seconds) are modelled as `Nat`, with the `uint16_t` narrowing in the
    keep-alive getters made explicit as `% 65536`.  Widths that do matter
    are kept: the `int8_t` reference count `_refcnt` wraps through
    `toInt8` (two's complement into [-128, 127]), and the `uint32_t`
    elapsed-time subtraction in `esp_delay` reduces mod 2^32 through
    `u32`.
-/

namespace CC

/-- lwIP error codes used by ClientContext. -/
inductive TcpErr where
  | ERR_OK
  | ERR_ABRT
  | ERR_MEM
  | ERR_OTHER
deriving DecidableEq, Repr

/-- lwIP TCP states (enum tcp_state). -/
inductive TcpState where
  | CLOSED
  | LISTEN
  | SYN_SENT
  | SYN_RCVD
  | ESTABLISHED
  | FIN_WAIT_1
  | FIN_WAIT_2
  | CLOSE_WAIT
  | CLOSING
  | LAST_ACK
  | TIME_WAIT
deriving DecidableEq, Repr

/-- The fields of an lwIP `tcp_pcb` that ClientContext reads or writes. -/
structure TcpPcb where
  state : TcpState
  so_keepalive : Bool
  keep_idle : Nat
  keep_intvl : Nat
  keep_cnt : Nat
deriving DecidableEq, Repr

/-- Observable side effects on the stack, recorded as a trace. -/
inductive StackCall where
  | tcpAbort
  | tcpClose
  | tcpOutput
  | discardCb
deriving DecidableEq, Repr

/-- `tot_len` of a pbuf chain: total number of payload bytes from the head
segment to the end of the chain. -/
def pbufTotLen (chain : List (List Nat)) : Nat :=
  (chain.map List.length).sum

/-- The receive side of a ClientContext: the `_rx_buf` pbuf chain and the
`_rx_buf_offset` consumed-bytes cursor into the head segment. -/
structure Rx where
  chain : List (List Nat)
  offset : Nat
deriving DecidableEq, Repr

/-- The unread byte stream held by a receive state: all chained payload
bytes past the consumed offset. -/
def Rx.stream (rx : Rx) : List Nat :=
  rx.chain.flatten.drop rx.offset

/-- Receive-buffer invariant: every segment of the chain is non-empty (lwIP
never delivers zero-length TCP segments) and, when the chain is non-null,
the consumed offset lies strictly inside the head segment. -/
def Rx.inv (rx : Rx) : Prop :=
  (∀ s ∈ rx.chain, s ≠ []) ∧ (rx.chain ≠ [] → rx.offset < (rx.chain.headD []).length)

instance (rx : Rx) : Decidable rx.inv := by
  unfold Rx.inv; infer_instance

/-- `ClientContext::getSize`: 0 when `_rx_buf` is null, otherwise
`_rx_buf->tot_len - _rx_buf_offset`. -/
def Rx.getSize (rx : Rx) : Nat :=
  if rx.chain = [] then 0 else pbufTotLen rx.chain - rx.offset

/-- `ClientContext::_consume(size)`: advance the cursor inside the head
segment; once the head is used up, free it and move to the next segment
(resetting the offset), or drop the chain entirely when no segment is left.
`left` is a C `ptrdiff_t`, hence the signed arithmetic.  (The `tcp_recved`
notification to the stack carries no modelled state.)  The C code is only
ever called with a non-null `_rx_buf`; on an empty chain the model is the
identity. -/
def Rx.consume (size : Nat) (rx : Rx) : Rx :=
  match rx.chain with
  | [] => rx
  | h :: t =>
    let left : Int := (h.length : Int) - (rx.offset : Int) - (size : Int)
    if 0 < left then { rx with offset := rx.offset + size }
    else if t = [] then ⟨[], 0⟩
    else ⟨t, 0⟩

/-- `ClientContext::read()`: the byte of the head segment at the current
offset (0 when no buffer), consuming one byte. -/
def Rx.read1 (rx : Rx) : Nat × Rx :=
  match rx.chain with
  | [] => (0, rx)
  | h :: _ => (h.getD rx.offset 0, Rx.consume 1 rx)

/-- One iteration step of the copy loop of `ClientContext::read(dst, size)`:
`buf_size = _rx_buf->len - _rx_buf_offset`, `copy_size = min size buf_size`,
copy from the head payload, `_consume(copy_size)`, and continue with
`size - copy_size`.  The C loop runs while `size` is non-zero; since every
iteration consumes at least one byte whenever the invariant holds, `size`
itself bounds the number of iterations and serves as fuel. -/
def Rx.readLoop : Nat → Nat → Rx → List Nat × Rx
  | _, 0, rx => ([], rx)
  | 0, _, rx => ([], rx)
  | fuel + 1, size, rx =>
    match rx.chain with
    | [] => ([], rx)
    | h :: _ =>
      let buf_size := h.length - rx.offset
      let copy_size := min size buf_size
      let taken := (h.drop rx.offset).take copy_size
      let rx1 := Rx.consume copy_size rx
      let rest := Rx.readLoop fuel (size - copy_size) rx1
      (taken ++ rest.1, rest.2)

/-- `ClientContext::read(dst, size)`: 0 bytes when `_rx_buf` is null;
otherwise clamp `size` to `tot_len - offset` and run the copy loop. -/
def Rx.readData (size : Nat) (rx : Rx) : List Nat × Rx :=
  if rx.chain = [] then ([], rx)
  else
    let size1 := min size rx.getSize
    Rx.readLoop size1 size1 rx

/-- `ClientContext::peek` (a `const` method): the byte at the cursor, with
the state untouched. -/
def Rx.peek (rx : Rx) : Nat × Rx :=
  match rx.chain with
  | [] => (0, rx)
  | h :: _ => (h.getD rx.offset 0, rx)

/-- `ClientContext::peekBytes(dst, size)` (a `const` method): clamp `size`
to `tot_len - offset`, then copy `copy_size = min size (len - offset)`
bytes out of the head segment only, without consuming. -/
def Rx.peekBytes (size : Nat) (rx : Rx) : List Nat × Rx :=
  match rx.chain with
  | [] => ([], rx)
  | h :: _ =>
    let size1 := min size rx.getSize
    let buf_size := h.length - rx.offset
    let copy_size := min size1 buf_size
    ((h.drop rx.offset).take copy_size, rx)

/-- `ClientContext::discard_received`: drop the whole chain and reset the
cursor (after telling the stack the bytes were consumed). -/
def Rx.discard (rx : Rx) : Rx :=
  if rx.chain = [] then rx else ⟨[], 0⟩

/-- The data-arrival half of `ClientContext::_recv` (non-null `pb`): append
the new pbuf chain with `pbuf_cat` when a chain exists, otherwise start a
fresh chain with offset 0. -/
def Rx.recvSeg (pb : List (List Nat)) (rx : Rx) : Rx :=
  if rx.chain = [] then ⟨pb, 0⟩ else { rx with chain := rx.chain ++ pb }

/-- The modelled fields of a ClientContext: the transport handle (`_pcb`,
nullable), the receive buffer (`_rx_buf`/`_rx_buf_offset`), the two suspend
flags, the reference count, and a trace of observable stack calls.  `alive`
is the ghost fact that `delete this` has not run yet: a destroyed context
accepts no further calls, so operations on a dead context are modelled as
the identity. -/
structure Ctx where
  pcb : Option TcpPcb
  rx : Rx
  connect_pending : Bool
  send_waiting : Bool
  refcnt : Int
  alive : Bool
  trace : List StackCall
deriving DecidableEq, Repr

/-- A context as built by the constructor: pcb attached, no buffered data,
both suspend flags down, `_refcnt(0)`, nothing yet done to the stack. -/
def freshCtx (p : TcpPcb) : Ctx :=
  ⟨some p, ⟨[], 0⟩, false, false, 0, true, []⟩

/-- `ClientContext::abort`: when a handle is present, detach all callbacks,
issue `tcp_abort` and null the handle; always returns `ERR_ABRT`. -/
def abortCtx (c : Ctx) : TcpErr × Ctx :=
  match c.pcb with
  | some _ =>
    (TcpErr.ERR_ABRT, { c with pcb := none, trace := c.trace ++ [StackCall.tcpAbort] })
  | none => (TcpErr.ERR_ABRT, c)

/-- `ClientContext::close`: detach the callbacks and `tcp_close` the handle;
when the stack rejects the graceful close (`closeOk = false`), escalate to
`tcp_abort` and report `ERR_ABRT`; the handle is nulled either way. -/
def closeCtx (closeOk : Bool) (c : Ctx) : TcpErr × Ctx :=
  match c.pcb with
  | none => (TcpErr.ERR_OK, c)
  | some _ =>
    if closeOk then
      (TcpErr.ERR_OK, { c with pcb := none, trace := c.trace ++ [StackCall.tcpClose] })
    else
      (TcpErr.ERR_ABRT,
       { c with pcb := none,
                trace := c.trace ++ [StackCall.tcpClose, StackCall.tcpAbort] })

/-- `ClientContext::_notify_error`: wake an in-flight connect or write
wait by clearing both suspend flags. -/
def notifyError (c : Ctx) : Ctx :=
  if c.connect_pending || c.send_waiting then
    { c with send_waiting := false, connect_pending := false }
  else c

/-- The peer-close half of `ClientContext::_recv` (`pb == 0`): wake any
waiter; if the chain still holds data (`_rx_buf && _rx_buf->tot_len`),
report `ERR_OK` and defer teardown, otherwise force-abort. -/
def recvClosed (c : Ctx) : TcpErr × Ctx :=
  let c1 := notifyError c
  if c1.rx.chain ≠ [] ∧ pbufTotLen c1.rx.chain ≠ 0 then (TcpErr.ERR_OK, c1)
  else abortCtx c1

/-- The data half of `ClientContext::_recv` (non-null `pb`) lifted to the
context: append/start the chain and report `ERR_OK`. -/
def recvData (pb : List (List Nat)) (c : Ctx) : TcpErr × Ctx :=
  (TcpErr.ERR_OK, { c with rx := Rx.recvSeg pb c.rx })

/-- `ClientContext::discard_received` on the context. -/
def discardReceived (c : Ctx) : Ctx :=
  { c with rx := Rx.discard c.rx }

/-- Two's-complement wrap into the `int8_t` range [-128, 127]: the value
the 8-bit field `_refcnt` actually stores after an increment or
decrement. -/
def toInt8 (n : Int) : Int :=
  (n + 128) % 256 - 128

/-- `ClientContext::ref`: `++_refcnt` on the `int8_t` field — the stored
value wraps to -128 once 128 references are outstanding. -/
def refOp (c : Ctx) : Ctx :=
  if c.alive then { c with refcnt := toInt8 (c.refcnt + 1) } else c

/-- `ClientContext::unref`: `--_refcnt` on the `int8_t` field; when the
stored (wrapped) value reaches zero, discard unread data, close the
transport, invoke the discard callback and destroy the context
(`delete this`, hence `alive := false`). -/
def unrefOp (closeOk : Bool) (c : Ctx) : Ctx :=
  if c.alive then
    if toInt8 (c.refcnt - 1) = 0 then
      let c1 := discardReceived { c with refcnt := toInt8 (c.refcnt - 1) }
      let c2 := (closeCtx closeOk c1).2
      { c2 with trace := c2.trace ++ [StackCall.discardCb], alive := false }
    else { c with refcnt := toInt8 (c.refcnt - 1) }
  else c

/-- Ref-count operations for whole-history statements. -/
inductive RcOp where
  | ref
  | unref (closeOk : Bool)
deriving DecidableEq, Repr

def RcOp.isRef : RcOp → Bool
  | RcOp.ref => true
  | RcOp.unref _ => false

def RcOp.isUnref : RcOp → Bool
  | RcOp.ref => false
  | RcOp.unref _ => true

def rcStep (c : Ctx) (op : RcOp) : Ctx :=
  match op with
  | RcOp.ref => refOp c
  | RcOp.unref ok => unrefOp ok c

/-- Run a history of `ref`/`unref` calls on a context. -/
def rcRun (c : Ctx) (l : List RcOp) : Ctx :=
  l.foldl rcStep c

def refCount (l : List RcOp) : Nat := (l.filter RcOp.isRef).length

def unrefCount (l : List RcOp) : Nat := (l.filter RcOp.isUnref).length

/-- Stack callbacks that can fire while `connect` is waiting. -/
inductive CbEvent where
  | connected
  | errored
deriving DecidableEq, Repr

/-- Effect of one callback during the connect wait: `_connected` (invoked
by the stack just after it moved the pcb to ESTABLISHED) clears the pending
flag; `_error` (the stack has already freed the pcb) detaches, nulls the
handle and wakes any waiter. -/
def applyConnectCb (e : CbEvent) (c : Ctx) : Ctx :=
  match e with
  | CbEvent.connected =>
    let c1 := { c with pcb := c.pcb.map fun (p : TcpPcb) => { p with state := TcpState.ESTABLISHED } }
    if c1.connect_pending then { c1 with connect_pending := false } else c1
  | CbEvent.errored => notifyError { c with pcb := none }

/-- The `esp_delay(_timeout_ms, [this] return _connect_pending, 1)` wait in
`connect`: the listed events fire one by one before the timeout elapses;
the wait stops early once the polled flag goes down; an exhausted list is
the timeout. -/
def connectWait (events : List CbEvent) (c : Ctx) : Ctx :=
  match events with
  | [] => c
  | e :: es => if c.connect_pending then connectWait es (applyConnectCb e c) else c

/-- `ClientContext::state()`: CLOSED when the handle is null or the pcb is
in CLOSE_WAIT/CLOSING, otherwise the pcb state. -/
def stateOf (c : Ctx) : TcpState :=
  match c.pcb with
  | none => TcpState.CLOSED
  | some p =>
    if p.state = TcpState.CLOSE_WAIT ∨ p.state = TcpState.CLOSING then TcpState.CLOSED
    else p.state

/-- `ClientContext::connect`: issue `tcp_connect` (failure returns 0; on
success the stack puts the pcb into SYN_SENT), raise the pending flag, wait
for the connected/error callbacks or the timeout, then: null handle means
failure; a non-ESTABLISHED state means abort and failure; otherwise 1. -/
def connect (connectOk : Bool) (events : List CbEvent) (c : Ctx) : Nat × Ctx :=
  if connectOk = false then (0, c)
  else
    let c1 := { c with pcb := c.pcb.map fun (p : TcpPcb) => { p with state := TcpState.SYN_SENT },
                       connect_pending := true }
    let c2 := connectWait events c1
    let c3 := { c2 with connect_pending := false }
    match c3.pcb with
    | none => (0, c3)
    | some _ =>
      if stateOf c3 ≠ TcpState.ESTABLISHED then (0, (abortCtx c3).2)
      else (1, c3)

/-- `ClientContext::keepAlive(idle_sec, intv_sec, count)`: all non-zero
enables keep-alive and stores idle/interval in milliseconds; any zero
argument clears the keep-alive option. -/
def keepAlive (idle_sec intv_sec count : Nat) (p : TcpPcb) : TcpPcb :=
  if idle_sec ≠ 0 ∧ intv_sec ≠ 0 ∧ count ≠ 0 then
    { p with so_keepalive := true,
             keep_idle := 1000 * idle_sec,
             keep_intvl := 1000 * intv_sec,
             keep_cnt := count }
  else { p with so_keepalive := false }

/-- `ClientContext::isKeepAliveEnabled`. -/
def isKeepAliveEnabled (p : TcpPcb) : Bool := p.so_keepalive

/-- `ClientContext::getKeepAliveIdle`: milliseconds back to seconds rounded
to nearest, narrowed to the uint16_t return type. -/
def getKeepAliveIdle (p : TcpPcb) : Nat :=
  if isKeepAliveEnabled p then ((p.keep_idle + 500) / 1000) % 65536 else 0

/-- `ClientContext::getKeepAliveInterval`. -/
def getKeepAliveInterval (p : TcpPcb) : Nat :=
  if isKeepAliveEnabled p then ((p.keep_intvl + 500) / 1000) % 65536 else 0

/-- `ClientContext::getKeepAliveCount`. -/
def getKeepAliveCount (p : TcpPcb) : Nat :=
  if isKeepAliveEnabled p then p.keep_cnt else 0

/-- The `uint32_t` wrap of the elapsed-time computation
`(uint32_t)millis() - start_ms`. -/
def u32 (n : Nat) : Nat :=
  n % 4294967296

/-- The `esp_delay` template: `while (((uint32_t)millis() - start_ms <
timeout_ms) && blocked()) delay(intvl_ms);` in a time model where each
`delay(intvl_ms)` advances the clock by exactly `intvl_ms`.  The condition
compares the true elapsed time reduced mod 2^32, exactly as the `uint32_t`
subtraction does; `blocked` is sampled at the current elapsed time.
Whenever `timeout_ms + intvl_ms` does not exceed 2^32 the loop adds at
least one interval per iteration without ever wrapping, so `timeout_ms`
iterations suffice; the fuel argument makes that bound explicit and `none`
marks a loop that is still running when the fuel runs out. -/
def espDelayLoop (timeout_ms intvl_ms : Nat) (blocked : Nat → Bool) :
    Nat → Nat → Option Nat
  | 0, elapsed =>
    if u32 elapsed < timeout_ms ∧ blocked elapsed = true then none else some elapsed
  | fuel + 1, elapsed =>
    if u32 elapsed < timeout_ms ∧ blocked elapsed = true then
      espDelayLoop timeout_ms intvl_ms blocked fuel (elapsed + intvl_ms)
    else some elapsed

/-- `esp_delay(timeout_ms, blocked, intvl_ms)`: total elapsed time when the
loop exits, starting from elapsed time 0, with fuel `timeout_ms`. -/
def esp_delay (timeout_ms : Nat) (blocked : Nat → Bool) (intvl_ms : Nat) : Option Nat :=
  espDelayLoop timeout_ms intvl_ms blocked timeout_ms 0

/-- Environment of one `_write_some` loop iteration: the `state() == CLOSED`
test, the advertised `tcp_sndbuf` window, and the result the stack returns
from `tcp_write`. -/
structure WIter where
  closed : Bool
  sndbuf : Nat
  res : TcpErr
deriving DecidableEq, Repr

/-- What one `_write_some` iteration attempted: window, remaining unsent
bytes, back-off exponent, attempted chunk, the TCP_WRITE_FLAG_MORE and
TCP_WRITE_FLAG_COPY flags, and the `tcp_write` result. -/
structure WRec where
  sndbuf : Nat
  remaining : Nat
  scale : Nat
  chunk : Nat
  more : Bool
  copy : Bool
  res : TcpErr
deriving DecidableEq, Repr

/-- Result of a `_write_some` pass: bytes accepted by the stack, the value
the C function returns, and the per-iteration records. -/
structure WRes where
  written : Nat
  retval : Bool
  recs : List WRec
deriving DecidableEq, Repr

/-- `next_chunk_size = std::min(tcp_sndbuf, remaining)`, then
`if (next_chunk_size > (1 << scale)) next_chunk_size >>= scale;`. -/
def nextChunkSize (sndbuf remaining scale : Nat) : Nat :=
  let n := min sndbuf remaining
  if 2 ^ scale < n then n / 2 ^ scale else n

/-- The `while (_written < _datalen)` loop of `ClientContext::_write_some`:
on CLOSED return false; a zero chunk ends the pass; `TCP_WRITE_FLAG_MORE`
iff the chunk is smaller than the remaining bytes, `TCP_WRITE_FLAG_COPY`
iff not in sync mode; `ERR_OK` advances `_written`, `ERR_MEM` increments
the back-off exponent up to 4 times before giving up, any other error ends
the pass.  The iteration environment list also serves as fuel. -/
def writeSomeLoop (sync : Bool) (datalen : Nat) :
    List WIter → Nat → Nat → Bool → WRes
  | [], written, _, has_written => ⟨written, has_written, []⟩
  | it :: env, written, scale, has_written =>
    if written < datalen then
      if it.closed then ⟨written, false, []⟩
      else
        let remaining := datalen - written
        let chunk := nextChunkSize it.sndbuf remaining scale
        if chunk = 0 then ⟨written, has_written, []⟩
        else
          let rec0 : WRec :=
            ⟨it.sndbuf, remaining, scale, chunk, decide (chunk < remaining), !sync, it.res⟩
          match it.res with
          | TcpErr.ERR_OK =>
            let r := writeSomeLoop sync datalen env (written + chunk) scale true
            ⟨r.written, r.retval, rec0 :: r.recs⟩
          | TcpErr.ERR_MEM =>
            if scale < 4 then
              let r := writeSomeLoop sync datalen env written (scale + 1) has_written
              ⟨r.written, r.retval, rec0 :: r.recs⟩
            else ⟨written, has_written, [rec0]⟩
          | _ => ⟨written, has_written, [rec0]⟩
    else ⟨written, has_written, []⟩

/-- One `_write_some` pass starting with nothing written. -/
def writeSome (sync : Bool) (datalen : Nat) (env : List WIter) : WRes :=
  writeSomeLoop sync datalen env 0 0 false

/-- Consecutive-iteration discipline of a `_write_some` pass: after a
memory-pressure error the pass continues only with the exponent bumped by
one, and only from an exponent below 4. -/
def memBackoff : List WRec → Prop
  | [] => True
  | [_] => True
  | a :: b :: rest =>
    (a.res = TcpErr.ERR_MEM → b.scale = a.scale + 1 ∧ a.scale < 4) ∧
      memBackoff (b :: rest)

/-- Reads issued by the application: `read()` or `read(dst, size)`. -/
inductive ReadOp where
  | single
  | chunk (n : Nat)
deriving DecidableEq, Repr

/-- Run a sequence of reads, concatenating everything they return. -/
def runReads : List ReadOp → Rx → List Nat × Rx
  | [], rx => ([], rx)
  | ReadOp.single :: ops, rx =>
    let r := Rx.read1 rx
    let rest := runReads ops r.2
    (r.1 :: rest.1, rest.2)
  | ReadOp.chunk n :: ops, rx =>
    let r := Rx.readData n rx
    let rest := runReads ops r.2
    (r.1 ++ rest.1, rest.2)

/-- Total number of bytes a sequence of reads asks for (`read()` asks for
one byte). -/
def requested : List ReadOp → Nat
  | [] => 0
  | ReadOp.single :: ops => 1 + requested ops
  | ReadOp.chunk n :: ops => n + requested ops

/-- Receive state after a sequence of data-arrival callbacks on a fresh
context. -/
def arrivals (ds : List (List (List Nat))) : Rx :=
  ds.foldl (fun rx pb => Rx.recvSeg pb rx) ⟨[], 0⟩

/-! Basic facts about the receive-buffer model. -/

theorem pbufTotLen_eq_length_flatten (chain : List (List Nat)) :
    pbufTotLen chain = chain.flatten.length := by
  simp [pbufTotLen]

theorem Rx.stream_cons (h : List Nat) (t : List (List Nat)) (off : Nat)
    (hoff : off ≤ h.length) :
    Rx.stream ⟨h :: t, off⟩ = h.drop off ++ t.flatten := by
  simp only [Rx.stream, List.flatten_cons]
  exact List.drop_append_of_le_length hoff

theorem Rx.consume_lt (h : List Nat) (t : List (List Nat)) (off size : Nat)
    (hlt : off + size < h.length) :
    Rx.consume size ⟨h :: t, off⟩ = ⟨h :: t, off + size⟩ := by
  simp only [Rx.consume]
  rw [if_pos (by omega)]

theorem Rx.consume_ge_nil (h : List Nat) (off size : Nat)
    (hge : h.length ≤ off + size) :
    Rx.consume size ⟨[h], off⟩ = ⟨[], 0⟩ := by
  simp only [Rx.consume]
  rw [if_neg (by omega)]
  simp

theorem Rx.consume_ge_cons (h s : List Nat) (t2 : List (List Nat)) (off size : Nat)
    (hge : h.length ≤ off + size) :
    Rx.consume size ⟨h :: s :: t2, off⟩ = ⟨s :: t2, 0⟩ := by
  simp only [Rx.consume]
  rw [if_neg (by omega)]
  simp

theorem Rx.length_stream (rx : Rx) (hinv : rx.inv) :
    rx.stream.length = rx.getSize := by
  obtain ⟨chain, off⟩ := rx
  cases chain with
  | nil => simp [Rx.stream, Rx.getSize]
  | cons h t =>
    obtain ⟨hsegs, hoff⟩ := hinv
    have hlt : off < h.length := by simpa using hoff (by simp)
    simp only [Rx.getSize, pbufTotLen_eq_length_flatten, Rx.stream]
    simp

theorem Rx.stream_nil_iff (rx : Rx) (hinv : rx.inv) :
    rx.stream = [] ↔ rx.chain = [] := by
  obtain ⟨chain, off⟩ := rx
  cases chain with
  | nil => simp [Rx.stream]
  | cons h t =>
    obtain ⟨hsegs, hoff⟩ := hinv
    have hlt : off < h.length := by simpa using hoff (by simp)
    rw [Rx.stream_cons h t off (le_of_lt hlt)]
    constructor
    · intro hs
      have := congrArg List.length hs
      simp at this
      omega
    · intro hcc; simp at hcc

/-- `_consume` preserves the receive-buffer invariant, for every size
(including the over-consume case reachable through `peekConsume`). -/
theorem Rx.inv_consume (size : Nat) (rx : Rx) (hinv : rx.inv) :
    (Rx.consume size rx).inv := by
  obtain ⟨chain, off⟩ := rx
  cases chain with
  | nil => simpa [Rx.consume] using hinv
  | cons h t =>
    obtain ⟨hsegs, hoff⟩ := hinv
    have hlt : off < h.length := by simpa using hoff (by simp)
    by_cases hcase : off + size < h.length
    · rw [Rx.consume_lt h t off size hcase]
      refine ⟨by simpa using hsegs, ?_⟩
      intro _; simpa using hcase
    · cases t with
      | nil =>
        rw [Rx.consume_ge_nil h off size (by omega)]
        simp [Rx.inv]
      | cons s t2 =>
        rw [Rx.consume_ge_cons h s t2 off size (by omega)]
        refine ⟨?_, ?_⟩
        · intro x hx
          exact hsegs x (List.mem_cons_of_mem h hx)
        · intro _
          have hs : s ≠ [] := hsegs s (by simp)
          simpa using List.length_pos.mpr hs

/-- Consuming at most the bytes left in the head segment drops exactly
`size` bytes from the unread stream. -/
theorem Rx.stream_consume (size : Nat) (h : List Nat) (t : List (List Nat)) (off : Nat)
    (hlt : off < h.length) (hsz : size ≤ h.length - off) :
    (Rx.consume size ⟨h :: t, off⟩).stream = (Rx.stream ⟨h :: t, off⟩).drop size := by
  rw [Rx.stream_cons h t off (le_of_lt hlt)]
  by_cases hcase : off + size < h.length
  · rw [Rx.consume_lt h t off size hcase,
        Rx.stream_cons h t (off + size) (le_of_lt hcase),
        List.drop_append_of_le_length (by simp; omega),
        List.drop_drop]
  · have hsize : size = h.length - off := by omega
    have hdroplen : (h.drop off).length = size := by simp; omega
    cases t with
    | nil =>
      rw [Rx.consume_ge_nil h off size (by omega)]
      have hnil : List.drop size (List.drop off h) = [] :=
        List.drop_eq_nil_iff.mpr (le_of_eq hdroplen)
      simp [Rx.stream, hnil]
    | cons s t2 =>
      rw [Rx.consume_ge_cons h s t2 off size (by omega)]
      rw [← hdroplen, List.drop_left]
      simp [Rx.stream]

/-- The copy loop of `read(dst, size)` returns exactly the first `size`
stream bytes and drops them, provided the invariant holds, the clamped size
is available, and the fuel covers the requested size. -/
theorem Rx.readLoop_spec : ∀ (fuel size : Nat) (rx : Rx), rx.inv →
    size ≤ rx.stream.length → size ≤ fuel →
    (Rx.readLoop fuel size rx).1 = rx.stream.take size ∧
    (Rx.readLoop fuel size rx).2.stream = rx.stream.drop size ∧
    (Rx.readLoop fuel size rx).2.inv := by
  intro fuel
  induction fuel with
  | zero =>
    intro size rx hinv hlen hfuel
    have hz : size = 0 := Nat.le_zero.mp hfuel
    subst hz
    simp [Rx.readLoop, hinv]
  | succ fuel ih =>
    intro size rx hinv hlen hfuel
    cases size with
    | zero => simp [Rx.readLoop, hinv]
    | succ size0 =>
      obtain ⟨chain, off⟩ := rx
      cases chain with
      | nil =>
        exfalso
        simp [Rx.stream] at hlen
      | cons h t =>
        obtain ⟨hsegs, hoff⟩ := hinv
        have hlt : off < h.length := by simpa using hoff (by simp)
        have hstr : Rx.stream ⟨h :: t, off⟩ = h.drop off ++ t.flatten :=
          Rx.stream_cons h t off (le_of_lt hlt)
        have hbuf : (h.drop off).length = h.length - off := by simp
        set size := size0 + 1 with hsizedef
        set copy_size := min size (h.length - off) with hcopy
        have hcopy_pos : 1 ≤ copy_size := by omega
        have hcopy_le : copy_size ≤ size := by omega
        have hcopy_head : copy_size ≤ h.length - off := by omega
        have hinv' : Rx.inv ⟨h :: t, off⟩ := ⟨hsegs, hoff⟩
        have hcons_stream :
            (Rx.consume copy_size ⟨h :: t, off⟩).stream =
              (Rx.stream ⟨h :: t, off⟩).drop copy_size :=
          Rx.stream_consume copy_size h t off hlt hcopy_head
        have hcons_inv : (Rx.consume copy_size ⟨h :: t, off⟩).inv :=
          Rx.inv_consume copy_size _ hinv'
        have hlen' :
            size - copy_size ≤ (Rx.consume copy_size ⟨h :: t, off⟩).stream.length := by
          rw [hcons_stream]
          simp only [List.length_drop]
          omega
        have hfuel' : size - copy_size ≤ fuel := by omega
        obtain ⟨ih1, ih2, ih3⟩ :=
          ih (size - copy_size) (Rx.consume copy_size ⟨h :: t, off⟩) hcons_inv hlen' hfuel'
        have htake : (Rx.stream ⟨h :: t, off⟩).take copy_size = (h.drop off).take copy_size := by
          rw [hstr]
          exact List.take_append_of_le_length (by omega)
        simp only [Rx.readLoop]
        refine ⟨?_, ?_, ?_⟩
        · rw [ih1, hcons_stream, ← htake, ← List.take_add]
          congr 1
          omega
        · rw [ih2, hcons_stream, List.drop_drop]
          congr 1
          omega
        · exact ih3

/-- `read(dst, size)` returns the first `size` unread bytes (clamped to the
available count) and removes exactly those from the stream. -/
theorem Rx.readData_spec (size : Nat) (rx : Rx) (hinv : rx.inv) :
    (Rx.readData size rx).1 = rx.stream.take size ∧
    (Rx.readData size rx).2.stream = rx.stream.drop size ∧
    (Rx.readData size rx).2.inv := by
  by_cases hc : rx.chain = []
  · have hs : rx.stream = [] := (Rx.stream_nil_iff rx hinv).mpr hc
    simp [Rx.readData, hc, hs, hinv]
  · have hlen : rx.stream.length = rx.getSize := Rx.length_stream rx hinv
    have hmin : min size rx.getSize ≤ rx.stream.length := by omega
    obtain ⟨h1, h2, h3⟩ :=
      Rx.readLoop_spec (min size rx.getSize) (min size rx.getSize) rx hinv hmin (le_refl _)
    simp only [Rx.readData, hc, if_false]
    refine ⟨?_, ?_, h3⟩
    · rw [h1]
      rcases Nat.le_total size rx.getSize with hle | hle
      · rw [Nat.min_eq_left hle]
      · rw [Nat.min_eq_right hle]
        rw [List.take_of_length_le (by omega), List.take_of_length_le (by omega)]
    · rw [h2]
      rcases Nat.le_total size rx.getSize with hle | hle
      · rw [Nat.min_eq_left hle]
      · rw [Nat.min_eq_right hle]
        rw [List.drop_eq_nil_iff.mpr (by omega), List.drop_eq_nil_iff.mpr (by omega)]

/-- `read()` returns the first unread stream byte (with 0 as the
empty-buffer fallback of the C code) and drops one byte. -/
theorem Rx.read1_spec (rx : Rx) (hinv : rx.inv) :
    (Rx.read1 rx).1 = rx.stream.getD 0 0 ∧
    (Rx.read1 rx).2.stream = rx.stream.drop 1 ∧
    (Rx.read1 rx).2.inv := by
  obtain ⟨chain, off⟩ := rx
  cases chain with
  | nil => simp [Rx.read1, Rx.stream, hinv]
  | cons h t =>
    obtain ⟨hsegs, hoff⟩ := hinv
    have hlt : off < h.length := by simpa using hoff (by simp)
    have hstr : Rx.stream ⟨h :: t, off⟩ = h.drop off ++ t.flatten :=
      Rx.stream_cons h t off (le_of_lt hlt)
    refine ⟨?_, ?_, ?_⟩
    · simp only [Rx.read1, hstr]
      have hdr : off + 0 < h.length := by omega
      have hgd : h.getD off 0 = h[off] := List.getD_eq_getElem h 0 hlt
      have hlen : 0 < (h.drop off).length := by simp; omega
      rw [List.getD_append _ _ _ _ hlen, hgd]
      rw [List.getD_eq_getElem _ _ hlen]
      simp
    · exact Rx.stream_consume 1 h t off hlt (by omega)
    · exact Rx.inv_consume 1 _ ⟨hsegs, hoff⟩


/-- The arrival callback preserves the invariant when the delivered pbuf
chain has no zero-length segment. -/
theorem Rx.inv_recvSeg (pb : List (List Nat)) (rx : Rx) (hinv : rx.inv)
    (hpb : ∀ s ∈ pb, s ≠ []) : (Rx.recvSeg pb rx).inv := by
  obtain ⟨chain, off⟩ := rx
  cases chain with
  | nil =>
    simp only [Rx.recvSeg, if_pos rfl]
    refine ⟨hpb, ?_⟩
    intro hne
    cases pb with
    | nil => simp at hne
    | cons p t =>
      have : p ≠ [] := hpb p (by simp)
      simpa using List.length_pos.mpr this
  | cons h t =>
    obtain ⟨hsegs, hoff⟩ := hinv
    have hlt : off < h.length := by simpa using hoff (by simp)
    simp only [Rx.recvSeg]
    rw [if_neg (by simp)]
    refine ⟨?_, ?_⟩
    · intro s hs
      have hs' : s = h ∨ s ∈ t ∨ s ∈ pb := by simpa using hs
      rcases hs' with rfl | hs1 | hs2
      · exact hsegs s (by simp)
      · exact hsegs s (by simp [hs1])
      · exact hpb s hs2
    · intro _
      simpa using hlt

/-- The arrival callback appends the delivered bytes to the unread stream. -/
theorem Rx.stream_recvSeg (pb : List (List Nat)) (rx : Rx) (hinv : rx.inv) :
    (Rx.recvSeg pb rx).stream = rx.stream ++ pb.flatten := by
  obtain ⟨chain, off⟩ := rx
  cases chain with
  | nil => simp [Rx.recvSeg, Rx.stream]
  | cons h t =>
    obtain ⟨hsegs, hoff⟩ := hinv
    have hlt : off < h.length := by simpa using hoff (by simp)
    simp only [Rx.recvSeg]
    rw [if_neg (by simp)]
    simp only [Rx.stream, List.flatten_append]
    rw [List.drop_append_of_le_length]
    simp
    omega

theorem Rx.inv_discard (rx : Rx) (hinv : rx.inv) : (Rx.discard rx).inv := by
  obtain ⟨chain, off⟩ := rx
  cases chain with
  | nil => simpa [Rx.discard] using hinv
  | cons h t => simp [Rx.discard, Rx.inv]

/-- Any sequence of `read()` / `read(dst, size)` calls that in total asks
for at most the unread byte count returns exactly that prefix of the
unread stream, in order. -/
theorem runReads_spec : ∀ (ops : List ReadOp) (rx : Rx), rx.inv →
    requested ops ≤ rx.stream.length →
    (runReads ops rx).1 = rx.stream.take (requested ops) ∧
    (runReads ops rx).2.stream = rx.stream.drop (requested ops) ∧
    (runReads ops rx).2.inv := by
  intro ops
  induction ops with
  | nil =>
    intro rx hinv hreq
    simp [runReads, requested, hinv]
  | cons op ops ih =>
    intro rx hinv hreq
    cases op with
    | single =>
      have hreq1 : 1 + requested ops ≤ rx.stream.length := by
        simpa [requested] using hreq
      obtain ⟨r1, r2, r3⟩ := Rx.read1_spec rx hinv
      have hlen2 : requested ops ≤ (Rx.read1 rx).2.stream.length := by
        rw [r2]; simp; omega
      obtain ⟨i1, i2, i3⟩ := ih (Rx.read1 rx).2 r3 hlen2
      have hne : rx.stream ≠ [] := by
        intro hs; rw [hs] at hreq1; simp at hreq1
      refine ⟨?_, ?_, i3⟩
      · simp only [runReads, requested]
        rw [i1, r1, r2]
        cases hstream : rx.stream with
        | nil => exact absurd hstream hne
        | cons a s =>
          simp [List.take_succ_cons, Nat.add_comm 1 (requested ops)]
      · simp only [runReads, requested]
        rw [i2, r2, List.drop_drop]
    | chunk n =>
      have hreqn : n + requested ops ≤ rx.stream.length := by
        simpa [requested] using hreq
      obtain ⟨r1, r2, r3⟩ := Rx.readData_spec n rx hinv
      have hlen2 : requested ops ≤ (Rx.readData n rx).2.stream.length := by
        rw [r2]; simp; omega
      obtain ⟨i1, i2, i3⟩ := ih (Rx.readData n rx).2 r3 hlen2
      refine ⟨?_, ?_, i3⟩
      · simp only [runReads, requested]
        rw [i1, r1, r2, ← List.take_add]
      · simp only [runReads, requested]
        rw [i2, r2, List.drop_drop]

/-- After a sequence of data-arrival callbacks on an empty context the
unread stream is the concatenation of all delivered payload bytes, and the
invariant holds. -/
theorem arrivals_spec : ∀ (ds : List (List (List Nat))) (rx : Rx), rx.inv →
    (∀ pb ∈ ds, ∀ s ∈ pb, s ≠ []) →
    (ds.foldl (fun rx pb => Rx.recvSeg pb rx) rx).inv ∧
    (ds.foldl (fun rx pb => Rx.recvSeg pb rx) rx).stream = rx.stream ++ ds.flatten.flatten := by
  intro ds
  induction ds with
  | nil =>
    intro rx hinv _
    simpa using hinv
  | cons pb ds ih =>
    intro rx hinv hds
    have hpb : ∀ s ∈ pb, s ≠ [] := hds pb (by simp)
    have hinv1 : (Rx.recvSeg pb rx).inv := Rx.inv_recvSeg pb rx hinv hpb
    have hds1 : ∀ q ∈ ds, ∀ s ∈ q, s ≠ [] := fun q hq => hds q (by simp [hq])
    obtain ⟨j1, j2⟩ := ih (Rx.recvSeg pb rx) hinv1 hds1
    refine ⟨by simpa using j1, ?_⟩
    simp only [List.foldl_cons]
    rw [j2, Rx.stream_recvSeg pb rx hinv]
    simp [List.flatten_cons, List.flatten_append]

/-- C1: for every sequence of data-arrival callbacks (non-null payload)
delivering segments whose concatenation is P, before any peer-close:
`getSize()` before any read equals the length of P, and any subsequent
sequence of `read()` / `read(dst, size)` calls, in any chunking, returns
exactly the bytes of P in their arrival order. -/
theorem claim_C1 (ds : List (List (List Nat)))
    (hds : ∀ pb ∈ ds, ∀ s ∈ pb, s ≠ [])
    (ops : List ReadOp)
    (hreq : requested ops ≤ ds.flatten.flatten.length) :
    (arrivals ds).getSize = ds.flatten.flatten.length ∧
    (runReads ops (arrivals ds)).1 = ds.flatten.flatten.take (requested ops) ∧
    (requested ops = ds.flatten.flatten.length →
      (runReads ops (arrivals ds)).1 = ds.flatten.flatten) := by
  have hinv0 : (Rx.inv ⟨[], 0⟩) := by constructor <;> simp
  obtain ⟨ha1, ha2⟩ := arrivals_spec ds ⟨[], 0⟩ hinv0 hds
  have hfold : arrivals ds = ds.foldl (fun rx pb => Rx.recvSeg pb rx) ⟨[], 0⟩ := rfl
  have hstream : (arrivals ds).stream = ds.flatten.flatten := by
    rw [hfold, ha2]
    simp [Rx.stream]
  have hinv : (arrivals ds).inv := by rw [hfold]; exact ha1
  have hsize : (arrivals ds).getSize = ds.flatten.flatten.length := by
    rw [← Rx.length_stream _ hinv, hstream]
  have hreq' : requested ops ≤ (arrivals ds).stream.length := by
    rw [hstream]; exact hreq
  obtain ⟨hr1, _, _⟩ := runReads_spec ops (arrivals ds) hinv hreq'
  refine ⟨hsize, ?_, ?_⟩
  · rw [hr1, hstream]
  · intro hall
    rw [hr1, hstream, hall, List.take_length]

/-- Witness for C1: two arrivals carrying segments [1,2],[3] and [4], read
back as one `read()` and one `read(dst, 3)`. -/
theorem claim_C1_witness :
    (arrivals [[[1, 2], [3]], [[4]]]).getSize = 4 ∧
    (runReads [ReadOp.single, ReadOp.chunk 3] (arrivals [[[1, 2], [3]], [[4]]])).1
      = [1, 2, 3, 4] := by
  have h := claim_C1 [[[1, 2], [3]], [[4]]] (by decide)
    [ReadOp.single, ReadOp.chunk 3] (by decide)
  exact ⟨h.1.trans (by decide), (h.2.2 (by decide)).trans (by decide)⟩

/-- C2: `peek()` and `peekBytes(dst, size)` leave the chain head, the read
offset and `getSize()` unchanged, and whenever data is available a
`peek()` immediately followed by a `read()` returns the same byte from
both calls. -/
theorem claim_C2 (rx : Rx) (n : Nat) :
    (Rx.peek rx).2 = rx ∧
    (Rx.peekBytes n rx).2 = rx ∧
    ((Rx.peekBytes n rx).2).chain = rx.chain ∧
    ((Rx.peekBytes n rx).2).offset = rx.offset ∧
    ((Rx.peekBytes n rx).2).getSize = rx.getSize ∧
    (0 < rx.getSize → (Rx.peek rx).1 = (Rx.read1 rx).1) := by
  obtain ⟨chain, off⟩ := rx
  cases chain with
  | nil => simp [Rx.peek, Rx.peekBytes, Rx.read1]
  | cons h t => simp [Rx.peek, Rx.peekBytes, Rx.read1]

/-- Witness for C2 on a one-segment buffer holding [5,6]. -/
theorem claim_C2_witness :
    0 < (Rx.getSize ⟨[[5, 6]], 0⟩) ∧
    (Rx.peek ⟨[[5, 6]], 0⟩).1 = (Rx.read1 ⟨[[5, 6]], 0⟩).1 :=
  ⟨by decide, (claim_C2 ⟨[[5, 6]], 0⟩ 1).2.2.2.2.2 (by decide)⟩

/-- C7: every operation on the context preserves the receive-buffer
invariant: the chain is non-null iff unread bytes remain, and whenever the
chain is non-null the consumed offset is strictly below the head segment
length. -/
theorem claim_C7 (rx : Rx) (hinv : rx.inv) :
    (∀ pb, (∀ s ∈ pb, s ≠ []) → (Rx.recvSeg pb rx).inv) ∧
    (Rx.read1 rx).2.inv ∧
    (∀ n, (Rx.readData n rx).2.inv) ∧
    (∀ n, (Rx.consume n rx).inv) ∧
    (Rx.discard rx).inv ∧
    (∀ (c : Ctx) (ok : Bool), c.rx = rx →
      (closeCtx ok c).2.rx = rx ∧ (recvClosed c).2.rx = rx) ∧
    (0 < rx.getSize ↔ rx.chain ≠ []) := by
  refine ⟨fun pb hpb => Rx.inv_recvSeg pb rx hinv hpb,
          (Rx.read1_spec rx hinv).2.2,
          fun n => (Rx.readData_spec n rx hinv).2.2,
          fun n => Rx.inv_consume n rx hinv,
          Rx.inv_discard rx hinv, ?_, ?_⟩
  · intro c ok hc
    constructor
    · cases hp : c.pcb with
      | none => simp [closeCtx, hp, hc]
      | some p =>
        cases ok with
        | true => simp [closeCtx, hp, hc]
        | false => simp [closeCtx, hp, hc]
    · have hn : (notifyError c).rx = rx := by
        simp only [notifyError]
        split <;> simp [hc]
      simp only [recvClosed]
      split
      · exact hn
      · cases hp : (notifyError c).pcb with
        | none => simp [abortCtx, hp, hn]
        | some p => simp [abortCtx, hp, hn]
  · have hlen := Rx.length_stream rx hinv
    have hni := Rx.stream_nil_iff rx hinv
    constructor
    · intro hpos hcc
      have : rx.stream = [] := hni.mpr hcc
      rw [← hlen, this] at hpos
      simp at hpos
    · intro hcc
      rw [← hlen]
      have : rx.stream ≠ [] := fun hs => hcc (hni.mp hs)
      exact List.length_pos.mpr this

/-- Witness for C7 on a one-segment buffer holding [7]. -/
theorem claim_C7_witness :
    Rx.inv ⟨[[7]], 0⟩ ∧ (Rx.read1 ⟨[[7]], 0⟩).2.inv :=
  ⟨by decide, (claim_C7 ⟨[[7]], 0⟩ (by decide)).2.1⟩

/-- C10 (implicit): `peekBytes(dst, size)` copies only from the head
segment: it returns `min size (bytes remaining in the head segment)`
bytes, which is strictly less than both the requested size and the total
unread count whenever the chain holds a further segment — unlike
`read(dst, size)`, which crosses segment boundaries. -/
theorem claim_C10 (rx : Rx) (h : List Nat) (t : List (List Nat)) (n : Nat)
    (hinv : rx.inv) (hc : rx.chain = h :: t) :
    (Rx.peekBytes n rx).1 = (h.drop rx.offset).take n ∧
    (Rx.peekBytes n rx).1.length = min n (h.length - rx.offset) ∧
    (t ≠ [] → h.length - rx.offset < n →
      (Rx.peekBytes n rx).1.length < n ∧
      (Rx.peekBytes n rx).1.length < rx.getSize ∧
      (Rx.peekBytes n rx).1.length < (Rx.readData n rx).1.length) := by
  obtain ⟨hsegs, hoff⟩ := hinv
  have hlt : rx.offset < h.length := by
    have := hoff (by simp [hc]); simpa [hc] using this
  have htot : rx.getSize = h.length + pbufTotLen t - rx.offset := by
    simp [Rx.getSize, hc, pbufTotLen]
  have hheadle : h.length - rx.offset ≤ rx.getSize := by omega
  have hcopy : min (min n rx.getSize) (h.length - rx.offset)
      = min n (h.length - rx.offset) := by omega
  have hpeek : (Rx.peekBytes n rx).1
      = (h.drop rx.offset).take (min n (h.length - rx.offset)) := by
    obtain ⟨chain, off⟩ := rx
    cases hc
    simp only [Rx.peekBytes]
    rw [show min (min n (Rx.getSize ⟨h :: t, off⟩)) (h.length - off)
          = min n (h.length - off) from hcopy]
  have hlen1 : (Rx.peekBytes n rx).1.length = min n (h.length - rx.offset) := by
    rw [hpeek]
    simp only [List.length_take, List.length_drop]
    omega
  refine ⟨?_, hlen1, ?_⟩
  · rw [hpeek]
    rcases Nat.le_total n (h.length - rx.offset) with hle | hle
    · rw [Nat.min_eq_left hle]
    · rw [Nat.min_eq_right hle]
      rw [List.take_of_length_le (by simp only [List.length_drop]; omega),
          List.take_of_length_le (by simp only [List.length_drop]; omega)]
  · intro htne hbig
    have hflat : 0 < pbufTotLen t := by
      cases t with
      | nil => exact absurd rfl htne
      | cons s t2 =>
        have hs : s ≠ [] := hsegs s (by simp [hc])
        have : 0 < s.length := List.length_pos.mpr hs
        simp [pbufTotLen]
        omega
    have hsz : h.length - rx.offset < rx.getSize := by omega
    have hinv' : rx.inv := ⟨hsegs, hoff⟩
    have hread : (Rx.readData n rx).1.length = min n rx.getSize := by
      rw [(Rx.readData_spec n rx hinv').1]
      rw [List.length_take, Rx.length_stream rx hinv']
    rw [hlen1, hread]
    omega

/-- Witness for C10: a buffer with head segment [1] and a second segment
[2], peeked with size 2. -/
theorem claim_C10_witness :
    Rx.inv ⟨[[1], [2]], 0⟩ ∧
    (Rx.peekBytes 2 ⟨[[1], [2]], 0⟩).1.length < 2 ∧
    (Rx.peekBytes 2 ⟨[[1], [2]], 0⟩).1.length < (Rx.readData 2 ⟨[[1], [2]], 0⟩).1.length := by
  have h := claim_C10 ⟨[[1], [2]], 0⟩ [1] [[2]] 2 (by decide) (by decide)
  have h3 := h.2.2 (by decide) (by decide)
  exact ⟨by decide, h3.1, h3.2.2⟩

/-- `_notify_error` only touches the two suspend flags. -/
theorem notifyError_fields (c : Ctx) :
    (notifyError c).pcb = c.pcb ∧ (notifyError c).rx = c.rx ∧
    (notifyError c).trace = c.trace := by
  simp only [notifyError]
  split <;> simp

/-- Under the invariant, data remains exactly when the chain is non-null. -/
theorem Rx.getSize_pos_iff (rx : Rx) (hinv : rx.inv) :
    0 < rx.getSize ↔ rx.chain ≠ [] := by
  have hlen := Rx.length_stream rx hinv
  have hni := Rx.stream_nil_iff rx hinv
  constructor
  · intro hpos hcc
    have hs : rx.stream = [] := hni.mpr hcc
    rw [← hlen, hs] at hpos
    simp at hpos
  · intro hcc
    rw [← hlen]
    exact List.length_pos.mpr fun hs => hcc (hni.mp hs)

/-- C5: when the peer-close callback fires with M unread bytes buffered:
M > 0 defers teardown (the callback returns ERR_OK, the handle is not
aborted, the buffer is untouched and subsequent reads still return the M
bytes); M = 0 force-aborts immediately and returns the aborted status. -/
theorem claim_C5 (c : Ctx) (hinv : c.rx.inv) :
    (0 < c.rx.getSize →
      (recvClosed c).1 = TcpErr.ERR_OK ∧
      (recvClosed c).2.pcb = c.pcb ∧
      (recvClosed c).2.trace = c.trace ∧
      (recvClosed c).2.rx = c.rx ∧
      (Rx.readData c.rx.getSize ((recvClosed c).2.rx)).1 = c.rx.stream ∧
      (Rx.readData c.rx.getSize ((recvClosed c).2.rx)).1.length = c.rx.getSize) ∧
    (c.rx.getSize = 0 →
      (recvClosed c).1 = TcpErr.ERR_ABRT ∧
      (recvClosed c).2.pcb = none ∧
      (c.pcb ≠ none → (recvClosed c).2.trace = c.trace ++ [StackCall.tcpAbort])) := by
  obtain ⟨hnp, hnr, hnt⟩ := notifyError_fields c
  constructor
  · intro hpos
    have hchain : c.rx.chain ≠ [] := (Rx.getSize_pos_iff c.rx hinv).mp hpos
    have htot : pbufTotLen c.rx.chain ≠ 0 := by
      have : c.rx.getSize ≤ pbufTotLen c.rx.chain := by
        simp only [Rx.getSize]
        rw [if_neg hchain]
        omega
      omega
    have hcond : (notifyError c).rx.chain ≠ [] ∧ pbufTotLen (notifyError c).rx.chain ≠ 0 := by
      rw [hnr]; exact ⟨hchain, htot⟩
    have heq : recvClosed c = (TcpErr.ERR_OK, notifyError c) := by
      simp only [recvClosed]
      rw [if_pos hcond]
    rw [heq]
    obtain ⟨hr1, _, _⟩ := Rx.readData_spec c.rx.getSize c.rx hinv
    have hlen : c.rx.stream.length = c.rx.getSize := Rx.length_stream c.rx hinv
    refine ⟨rfl, hnp, hnt, hnr, ?_, ?_⟩
    · simp only [hnr]
      rw [hr1, ← hlen, List.take_length]
    · simp only [hnr]
      rw [hr1, ← hlen, List.take_length, hlen]
  · intro hzero
    have hchain : c.rx.chain = [] := by
      by_contra hcc
      have := (Rx.getSize_pos_iff c.rx hinv).mpr hcc
      omega
    have hcond : ¬((notifyError c).rx.chain ≠ [] ∧ pbufTotLen (notifyError c).rx.chain ≠ 0) := by
      rw [hnr, hchain]
      simp
    have heq : recvClosed c = abortCtx (notifyError c) := by
      simp only [recvClosed]
      rw [if_neg hcond]
    rw [heq]
    refine ⟨?_, ?_, ?_⟩
    · cases hp : (notifyError c).pcb <;> simp [abortCtx, hp]
    · cases hp : (notifyError c).pcb <;> simp [abortCtx, hp]
    · intro hpne
      have hp : (notifyError c).pcb = c.pcb := hnp
      cases hcp : c.pcb with
      | none => exact absurd hcp hpne
      | some p =>
        rw [hcp] at hp
        simp [abortCtx, hp, hnt]

/-- Witness for C5: an established context holding one unread byte. -/
theorem claim_C5_witness :
    Rx.inv ⟨[[9]], 0⟩ ∧
    (recvClosed ⟨some ⟨TcpState.ESTABLISHED, false, 0, 0, 0⟩, ⟨[[9]], 0⟩,
        false, false, 1, true, []⟩).1 = TcpErr.ERR_OK := by
  have h := claim_C5 ⟨some ⟨TcpState.ESTABLISHED, false, 0, 0, 0⟩, ⟨[[9]], 0⟩,
      false, false, 1, true, []⟩ (by decide)
  exact ⟨by decide, (h.1 (by decide)).1⟩

/-- C4: keepAlive with any zero argument disables keep-alive and all three
getters subsequently return 0; with all arguments non-zero it is enabled,
idle and interval are stored as milliseconds (value * 1000), and each
getter converts back to seconds rounded to nearest, reproducing the input
exactly (so certainly within 0.5 s). -/
theorem claim_C4 (p : TcpPcb) (idle_sec intv_sec count : Nat)
    (hidle : idle_sec < 65536) (hintv : intv_sec < 65536) (_hcnt : count < 256) :
    ((idle_sec = 0 ∨ intv_sec = 0 ∨ count = 0) →
      isKeepAliveEnabled (keepAlive idle_sec intv_sec count p) = false ∧
      getKeepAliveIdle (keepAlive idle_sec intv_sec count p) = 0 ∧
      getKeepAliveInterval (keepAlive idle_sec intv_sec count p) = 0 ∧
      getKeepAliveCount (keepAlive idle_sec intv_sec count p) = 0) ∧
    (idle_sec ≠ 0 → intv_sec ≠ 0 → count ≠ 0 →
      isKeepAliveEnabled (keepAlive idle_sec intv_sec count p) = true ∧
      (keepAlive idle_sec intv_sec count p).keep_idle = 1000 * idle_sec ∧
      (keepAlive idle_sec intv_sec count p).keep_intvl = 1000 * intv_sec ∧
      getKeepAliveIdle (keepAlive idle_sec intv_sec count p) = idle_sec ∧
      getKeepAliveInterval (keepAlive idle_sec intv_sec count p) = intv_sec ∧
      getKeepAliveCount (keepAlive idle_sec intv_sec count p) = count) := by
  constructor
  · intro hzero
    have hcond : ¬(idle_sec ≠ 0 ∧ intv_sec ≠ 0 ∧ count ≠ 0) := by
      rcases hzero with h | h | h <;> simp [h]
    have heq : keepAlive idle_sec intv_sec count p = { p with so_keepalive := false } := by
      simp only [keepAlive]
      rw [if_neg hcond]
    rw [heq]
    simp [isKeepAliveEnabled, getKeepAliveIdle, getKeepAliveInterval, getKeepAliveCount]
  · intro h1 h2 h3
    have heq : keepAlive idle_sec intv_sec count p =
        { p with so_keepalive := true, keep_idle := 1000 * idle_sec,
                 keep_intvl := 1000 * intv_sec, keep_cnt := count } := by
      simp only [keepAlive]
      rw [if_pos ⟨h1, h2, h3⟩]
    rw [heq]
    refine ⟨rfl, rfl, rfl, ?_, ?_, rfl⟩
    · simp only [getKeepAliveIdle, isKeepAliveEnabled, if_pos]
      omega
    · simp only [getKeepAliveInterval, isKeepAliveEnabled, if_pos]
      omega

/-- Witness for C4: idle 30 s, interval 5 s, count 3 round-trip. -/
theorem claim_C4_witness :
    (30 : Nat) < 65536 ∧
    getKeepAliveIdle (keepAlive 30 5 3 ⟨TcpState.ESTABLISHED, false, 0, 0, 0⟩) = 30 ∧
    getKeepAliveInterval (keepAlive 30 5 3 ⟨TcpState.ESTABLISHED, false, 0, 0, 0⟩) = 5 ∧
    getKeepAliveCount (keepAlive 30 5 3 ⟨TcpState.ESTABLISHED, false, 0, 0, 0⟩) = 3 := by
  have h := (claim_C4 ⟨TcpState.ESTABLISHED, false, 0, 0, 0⟩ 30 5 3
      (by decide) (by decide) (by decide)).2 (by decide) (by decide) (by decide)
  exact ⟨by decide, h.2.2.2.1, h.2.2.2.2.1, h.2.2.2.2.2⟩

/-- With timeout 2^32 - 1 and interval 2, starting from an even elapsed
time, the uint32_t-wrapped elapsed value stays even and hence always below
the odd timeout: no amount of fuel makes the loop stop. -/
theorem espDelayLoop_wrap_stuck : ∀ (fuel elapsed : Nat), elapsed % 2 = 0 →
    espDelayLoop 4294967295 2 (fun _ => true) fuel elapsed = none := by
  intro fuel
  induction fuel with
  | zero =>
    intro elapsed he
    simp only [espDelayLoop]
    rw [if_pos ⟨by simp only [u32]; omega, by trivial⟩]
  | succ fuel ih =>
    intro elapsed he
    simp only [espDelayLoop]
    rw [if_pos ⟨by simp only [u32]; omega, by trivial⟩]
    exact ih (elapsed + 2) (by omega)

/-- C9 counterexample: the loop condition compares the elapsed time through
the uint32_t subtraction `(uint32_t)millis() - start_ms`.  With timeout
2^32 - 1, interval 2 and a predicate that stays true, the wrapped elapsed
time only takes even values and never reaches the odd timeout, so the wait
does not terminate — in particular not within timeout plus one interval,
refuting the claim for this interval ≥ 1. -/
theorem claim_C9_counterexample :
    (1 : Nat) ≤ 2 ∧
    ¬ ∃ e, esp_delay 4294967295 (fun _ => true) 2 = some e ∧
      e ≤ 4294967295 + 2 := by
  refine ⟨by omega, ?_⟩
  rintro ⟨e, he, _⟩
  rw [show esp_delay 4294967295 (fun _ => true) 2
        = espDelayLoop 4294967295 2 (fun _ => true) 4294967295 0 from rfl,
      espDelayLoop_wrap_stuck 4294967295 0 rfl] at he
  exact Option.noConfusion he

/-- C9 (amended): for every timeout, every retry interval ≥ 1 and every
polled predicate, provided timeout + interval does not exceed 2^32 (so the
uint32_t elapsed-time comparison never wraps during the wait), the
cooperative wait primitive terminates, and (with each delay advancing the
clock by exactly the interval) the total elapsed wait time is at most the
timeout plus one interval. -/
theorem claim_C9_amended (timeout_ms intvl_ms : Nat) (blocked : Nat → Bool)
    (hintvl : 1 ≤ intvl_ms) (hwidth : timeout_ms + intvl_ms ≤ 4294967296) :
    ∃ e, esp_delay timeout_ms blocked intvl_ms = some e ∧
      e ≤ timeout_ms + intvl_ms := by
  have main : ∀ fuel elapsed, timeout_ms ≤ fuel + elapsed → elapsed < 4294967296 →
      ∃ e, espDelayLoop timeout_ms intvl_ms blocked fuel elapsed = some e ∧
        e ≤ max elapsed (timeout_ms + intvl_ms) := by
    intro fuel
    induction fuel with
    | zero =>
      intro elapsed he hlt
      have hu : u32 elapsed = elapsed := Nat.mod_eq_of_lt hlt
      refine ⟨elapsed, ?_, le_max_left _ _⟩
      simp only [espDelayLoop]
      rw [if_neg (fun hcond => by
        have h1 := hcond.1
        rw [hu] at h1
        omega)]
    | succ fuel ih =>
      intro elapsed he hlt
      have hu : u32 elapsed = elapsed := Nat.mod_eq_of_lt hlt
      by_cases hcond : u32 elapsed < timeout_ms ∧ blocked elapsed = true
      · simp only [espDelayLoop]
        rw [if_pos hcond]
        have h1 : elapsed < timeout_ms := by
          have := hcond.1
          rwa [hu] at this
        obtain ⟨e, heq, hb⟩ := ih (elapsed + intvl_ms) (by omega) (by omega)
        exact ⟨e, heq, by omega⟩
      · simp only [espDelayLoop]
        rw [if_neg hcond]
        exact ⟨elapsed, rfl, le_max_left _ _⟩
  obtain ⟨e, heq, hb⟩ := main timeout_ms 0 (by omega) (by omega)
  exact ⟨e, heq, by omega⟩

/-- Witness for the amended C9: timeout 3, interval 2, a predicate that
never turns false: the loop exits after the timeout with elapsed 4 ≤ 5. -/
theorem claim_C9_amended_witness :
    (1 : Nat) ≤ 2 ∧ (3 : Nat) + 2 ≤ 4294967296 ∧
    ∃ e, esp_delay 3 (fun _ => true) 2 = some e ∧ e ≤ 3 + 2 :=
  ⟨by decide, by decide, claim_C9_amended 3 2 (fun _ => true) (by decide) (by decide)⟩

/-- C3: a `connect` call that the stack accepts but during which neither
the connected callback nor an error callback fires before the timeout
returns 0, and afterwards the transport handle is null and was
force-aborted (`tcp_abort` recorded), not left open. -/
theorem claim_C3 (c : Ctx) (p : TcpPcb) (hp : c.pcb = some p) :
    (connect true [] c).1 = 0 ∧
    (connect true [] c).2.pcb = none ∧
    (connect true [] c).2.trace = c.trace ++ [StackCall.tcpAbort] := by
  obtain ⟨pcb, rx, cp, sw, rc, al, tr⟩ := c
  have hp' : pcb = some p := hp
  subst hp'
  simp [connect, connectWait, stateOf, abortCtx]

/-- Witness for C3: a freshly constructed context times out connecting. -/
theorem claim_C3_witness :
    (connect true [] (freshCtx ⟨TcpState.CLOSED, false, 0, 0, 0⟩)).1 = 0 ∧
    (connect true [] (freshCtx ⟨TcpState.CLOSED, false, 0, 0, 0⟩)).2.pcb = none := by
  have h := claim_C3 (freshCtx ⟨TcpState.CLOSED, false, 0, 0, 0⟩)
    ⟨TcpState.CLOSED, false, 0, 0, 0⟩ rfl
  exact ⟨h.1, h.2.1⟩

/-- A destroyed context absorbs every further ref/unref. -/
theorem rcRun_dead (l : List RcOp) : ∀ c : Ctx, c.alive = false → rcRun c l = c := by
  induction l with
  | nil => intro c _; rfl
  | cons op l ih =>
    intro c hdead
    have hstep : rcStep c op = c := by
      cases op with
      | ref => simp [rcStep, refOp, hdead]
      | unref ok => simp [rcStep, unrefOp, hdead]
    show rcRun (rcStep c op) l = c
    rw [hstep]
    exact ih c hdead

/-- `toInt8` is the identity on values already inside the int8_t range. -/
theorem toInt8_eq_self (n : Int) (h1 : -128 ≤ n) (h2 : n ≤ 127) : toInt8 n = n := by
  unfold toInt8
  omega

theorem refCount_cons_ref (l : List RcOp) :
    refCount (RcOp.ref :: l) = refCount l + 1 := by
  simp [refCount, RcOp.isRef, List.filter_cons]

theorem unrefCount_cons_ref (l : List RcOp) :
    unrefCount (RcOp.ref :: l) = unrefCount l := by
  simp [unrefCount, RcOp.isUnref, List.filter_cons]

theorem refCount_cons_unref (ok : Bool) (l : List RcOp) :
    refCount (RcOp.unref ok :: l) = refCount l := by
  simp [refCount, RcOp.isRef, List.filter_cons]

theorem unrefCount_cons_unref (ok : Bool) (l : List RcOp) :
    unrefCount (RcOp.unref ok :: l) = unrefCount l + 1 := by
  simp [unrefCount, RcOp.isUnref, List.filter_cons]

theorem refOp_live (c : Ctx) (halive : c.alive = true) :
    refOp c = { c with refcnt := toInt8 (c.refcnt + 1) } := by
  simp [refOp, halive]

theorem unrefOp_live (ok : Bool) (c : Ctx) (halive : c.alive = true)
    (hne : toInt8 (c.refcnt - 1) ≠ 0) :
    unrefOp ok c = { c with refcnt := toInt8 (c.refcnt - 1) } := by
  simp only [unrefOp, halive, if_true]
  rw [if_neg hne]

/-- The teardown branch of `unref`: stored count 1, so the decrement
reaches 0 and the context discards its data, closes, fires the discard
callback exactly once and dies. -/
theorem unrefOp_teardown (ok : Bool) (c : Ctx) (halive : c.alive = true)
    (hone : c.refcnt = 1) :
    (unrefOp ok c).alive = false ∧
    (unrefOp ok c).refcnt = 0 ∧
    (unrefOp ok c).trace.count StackCall.discardCb
      = c.trace.count StackCall.discardCb + 1 := by
  have hz : toInt8 (c.refcnt - 1) = 0 := by
    rw [hone]
    decide
  simp only [unrefOp, halive, if_true]
  rw [if_pos hz]
  cases hp : c.pcb with
  | none => simp [closeCtx, discardReceived, hp, hz]
  | some q =>
    cases ok with
    | true => simp [closeCtx, discardReceived, hp, hz]
    | false => simp [closeCtx, discardReceived, hp, hz]

/-- Every run from a live, not-yet-torn-down context whose logical
ref/unref balance stays inside [0, 127] (so the int8_t counter never
wraps) either stays live — stored count equal to the balance, nothing yet
torn down — or has died with count 0 and the teardown done exactly once. -/
theorem rcRun_dichotomy : ∀ (l : List RcOp) (c : Ctx),
    c.alive = true → c.trace.count StackCall.discardCb = 0 →
    (∀ n, n ≤ l.length →
      0 ≤ c.refcnt + (refCount (l.take n) : Int) - (unrefCount (l.take n) : Int) ∧
      c.refcnt + (refCount (l.take n) : Int) - (unrefCount (l.take n) : Int) ≤ 127) →
    ((rcRun c l).alive = true ∧
      (rcRun c l).refcnt = c.refcnt + (refCount l : Int) - (unrefCount l : Int) ∧
      (rcRun c l).trace = c.trace ∧
      (rcRun c l).pcb = c.pcb) ∨
    ((rcRun c l).alive = false ∧
      (rcRun c l).refcnt = 0 ∧
      (rcRun c l).trace.count StackCall.discardCb = 1) := by
  intro l
  induction l with
  | nil =>
    intro c halive hcount _
    left
    refine ⟨halive, ?_, rfl, rfl⟩
    simp [rcRun, refCount, unrefCount]
  | cons op l ih =>
    intro c halive hcount hrange
    have h0 := hrange 0 (by omega)
    have hc0 : 0 ≤ c.refcnt ∧ c.refcnt ≤ 127 := by
      simp only [List.take_zero, refCount, unrefCount, List.filter_nil,
        List.length_nil] at h0
      omega
    have h1 := hrange 1 (by simp)
    cases op with
    | ref =>
      have htake1 : (RcOp.ref :: l).take 1 = [RcOp.ref] := rfl
      rw [htake1] at h1
      have hcr : (refCount [RcOp.ref] : Int) = 1 := by decide
      have hcu : (unrefCount [RcOp.ref] : Int) = 0 := by decide
      have hlt : c.refcnt + 1 ≤ 127 := by omega
      have hto : toInt8 (c.refcnt + 1) = c.refcnt + 1 :=
        toInt8_eq_self _ (by omega) (by omega)
      have hstep : rcStep c RcOp.ref = { c with refcnt := c.refcnt + 1 } := by
        rw [rcStep.eq_def]
        simp only [refOp_live c halive, hto]
      have hrun : rcRun c (RcOp.ref :: l) = rcRun { c with refcnt := c.refcnt + 1 } l := by
        show rcRun (rcStep c RcOp.ref) l = _
        rw [hstep]
      rw [hrun]
      have hrange' : ∀ n, n ≤ l.length →
          0 ≤ (c.refcnt + 1) + (refCount (l.take n) : Int) - (unrefCount (l.take n) : Int) ∧
          (c.refcnt + 1) + (refCount (l.take n) : Int) - (unrefCount (l.take n) : Int)
            ≤ 127 := by
        intro n hn
        have h := hrange (n + 1) (by simp; omega)
        simp only [List.take_succ_cons, refCount_cons_ref, unrefCount_cons_ref] at h
        constructor <;> omega
      rcases ih { c with refcnt := c.refcnt + 1 } halive hcount hrange' with
        ⟨hh1, hh2, hh3, hh4⟩ | hdead
      · left
        refine ⟨hh1, ?_, hh3, hh4⟩
        have hproj : ({ c with refcnt := c.refcnt + 1 } : Ctx).refcnt = c.refcnt + 1 := rfl
        rw [hh2, hproj, refCount_cons_ref, unrefCount_cons_ref]
        push_cast
        ring
      · right; exact hdead
    | unref ok =>
      have htake1 : (RcOp.unref ok :: l).take 1 = [RcOp.unref ok] := rfl
      rw [htake1] at h1
      have hcr : (refCount [RcOp.unref ok] : Int) = 0 := by
        cases ok <;> decide
      have hcu : (unrefCount [RcOp.unref ok] : Int) = 1 := by
        cases ok <;> decide
      have hge : 1 ≤ c.refcnt := by omega
      by_cases hone : c.refcnt = 1
      · have htd := unrefOp_teardown ok c halive hone
        have hrun : rcRun c (RcOp.unref ok :: l) = rcRun (unrefOp ok c) l := rfl
        rw [hrun, rcRun_dead l (unrefOp ok c) htd.1]
        right
        exact ⟨htd.1, htd.2.1, by rw [htd.2.2, hcount]⟩
      · have hto : toInt8 (c.refcnt - 1) = c.refcnt - 1 :=
          toInt8_eq_self _ (by omega) (by omega)
        have hne : toInt8 (c.refcnt - 1) ≠ 0 := by
          rw [hto]
          omega
        have hstep : rcStep c (RcOp.unref ok) = { c with refcnt := c.refcnt - 1 } := by
          rw [rcStep.eq_def]
          simp only [unrefOp_live ok c halive hne, hto]
        have hrun : rcRun c (RcOp.unref ok :: l)
            = rcRun { c with refcnt := c.refcnt - 1 } l := by
          show rcRun (rcStep c (RcOp.unref ok)) l = _
          rw [hstep]
        rw [hrun]
        have hrange' : ∀ n, n ≤ l.length →
            0 ≤ (c.refcnt - 1) + (refCount (l.take n) : Int) - (unrefCount (l.take n) : Int) ∧
            (c.refcnt - 1) + (refCount (l.take n) : Int) - (unrefCount (l.take n) : Int)
              ≤ 127 := by
          intro n hn
          have h := hrange (n + 1) (by simp; omega)
          simp only [List.take_succ_cons, refCount_cons_unref, unrefCount_cons_unref] at h
          constructor <;> omega
        rcases ih { c with refcnt := c.refcnt - 1 } halive hcount hrange' with
          ⟨hh1, hh2, hh3, hh4⟩ | hdead
        · left
          refine ⟨hh1, ?_, hh3, hh4⟩
          have hproj : ({ c with refcnt := c.refcnt - 1 } : Ctx).refcnt = c.refcnt - 1 := rfl
          rw [hh2, hproj, refCount_cons_unref, unrefCount_cons_unref]
          push_cast
          ring
        · right; exact hdead

theorem rcRun_snoc (c : Ctx) (xs : List RcOp) (op : RcOp) :
    rcRun c (xs ++ [op]) = rcStep (rcRun c xs) op := by
  simp [rcRun, List.foldl_append]

set_option maxRecDepth 16384 in
/-- C8 counterexample: `_refcnt` is an `int8_t`.  The balanced history of
128 consecutive ref() calls (never more unrefs than refs — there is no
unref at all) wraps the stored counter to -128, so the reference count
does not stay non-negative. -/
theorem claim_C8_counterexample :
    unrefCount (List.replicate 128 RcOp.ref) = 0 ∧
    (rcRun (freshCtx ⟨TcpState.ESTABLISHED, false, 0, 0, 0⟩)
      (List.replicate 128 RcOp.ref)).refcnt = -128 ∧
    ¬(0 ≤ (rcRun (freshCtx ⟨TcpState.ESTABLISHED, false, 0, 0, 0⟩)
      (List.replicate 128 RcOp.ref)).refcnt) := by
  refine ⟨by decide, by decide, by decide⟩

/-- C8 (amended): over every balanced history of ref()/unref() calls whose
outstanding-reference balance never exceeds 127 — so the int8_t `_refcnt`
never wraps — the reference count stays non-negative; the teardown
(discard data, close transport, discard callback, destroy) runs at most
once, and it runs exactly at the unref() that brings the count to zero,
while an unref() that leaves the count positive performs no teardown and
only decrements. -/
theorem claim_C8_amended (p : TcpPcb) (l : List RcOp)
    (hbal : ∀ n, n ≤ l.length → unrefCount (l.take n) ≤ refCount (l.take n))
    (hbound : ∀ n, n ≤ l.length →
      refCount (l.take n) - unrefCount (l.take n) ≤ 127) :
    (∀ n, n ≤ l.length → 0 ≤ (rcRun (freshCtx p) (l.take n)).refcnt) ∧
    (rcRun (freshCtx p) l).trace.count StackCall.discardCb ≤ 1 ∧
    (∀ n ok, l.take (n + 1) = l.take n ++ [RcOp.unref ok] →
      ((rcRun (freshCtx p) (l.take n)).refcnt = 1 →
        (rcRun (freshCtx p) (l.take (n + 1))).alive = false ∧
        (rcRun (freshCtx p) (l.take (n + 1))).trace.count StackCall.discardCb = 1 ∧
        (rcRun (freshCtx p) (l.take n)).trace.count StackCall.discardCb = 0) ∧
      (1 < (rcRun (freshCtx p) (l.take n)).refcnt →
        (rcRun (freshCtx p) (l.take (n + 1))).alive = true ∧
        (rcRun (freshCtx p) (l.take (n + 1))).trace
          = (rcRun (freshCtx p) (l.take n)).trace ∧
        (rcRun (freshCtx p) (l.take (n + 1))).refcnt
          = (rcRun (freshCtx p) (l.take n)).refcnt - 1)) := by
  have hfa : (freshCtx p).alive = true := rfl
  have hfc : (freshCtx p).trace.count StackCall.discardCb = 0 := rfl
  have hrangeOf : ∀ n, n ≤ l.length → ∀ m, m ≤ (l.take n).length →
      0 ≤ (freshCtx p).refcnt + (refCount ((l.take n).take m) : Int)
        - (unrefCount ((l.take n).take m) : Int) ∧
      (freshCtx p).refcnt + (refCount ((l.take n).take m) : Int)
        - (unrefCount ((l.take n).take m) : Int) ≤ 127 := by
    intro n hn m hm
    have hlen : (l.take n).length = min n l.length := by simp
    have hmn : m ≤ n := by omega
    have hml : m ≤ l.length := by omega
    have htt : (l.take n).take m = l.take m := by
      rw [List.take_take]
      congr 1
      omega
    rw [htt]
    have hb1 := hbal m hml
    have hb2 := hbound m hml
    constructor <;> (simp only [freshCtx]; omega)
  have hrangeL : ∀ m, m ≤ l.length →
      0 ≤ (freshCtx p).refcnt + (refCount (l.take m) : Int)
        - (unrefCount (l.take m) : Int) ∧
      (freshCtx p).refcnt + (refCount (l.take m) : Int)
        - (unrefCount (l.take m) : Int) ≤ 127 := by
    intro m hm
    have hb1 := hbal m hm
    have hb2 := hbound m hm
    constructor <;> (simp only [freshCtx]; omega)
  refine ⟨?_, ?_, ?_⟩
  · intro n hn
    rcases rcRun_dichotomy (l.take n) (freshCtx p) hfa hfc (hrangeOf n hn) with
      ⟨_, h2, _, _⟩ | ⟨_, h2, _⟩
    · rw [h2]
      have := hbal n hn
      simp only [freshCtx]
      omega
    · rw [h2]
  · rcases rcRun_dichotomy l (freshCtx p) hfa hfc hrangeL with
      ⟨_, _, h3, _⟩ | ⟨_, _, h3⟩
    · rw [h3, hfc]
      omega
    · rw [h3]
  · intro n ok hsplit
    have hn : n < l.length := by
      by_contra hge
      push_neg at hge
      rw [List.take_of_length_le hge, List.take_of_length_le (by omega)] at hsplit
      have := congrArg List.length hsplit
      simp at this
    have hstep : rcRun (freshCtx p) (l.take (n + 1))
        = unrefOp ok (rcRun (freshCtx p) (l.take n)) := by
      rw [hsplit, rcRun_snoc]
      rfl
    rcases rcRun_dichotomy (l.take n) (freshCtx p) hfa hfc
        (hrangeOf n (le_of_lt hn)) with
      ⟨ha, h2, h3, h4⟩ | ⟨hd1, hd2, hd3⟩
    · have hle127 : (rcRun (freshCtx p) (l.take n)).refcnt ≤ 127 := by
        rw [h2]
        have hb1 := hbal n (le_of_lt hn)
        have hb2 := hbound n (le_of_lt hn)
        simp only [freshCtx]
        omega
      constructor
      · intro hone
        obtain ⟨t1, t2, t3⟩ :=
          unrefOp_teardown ok (rcRun (freshCtx p) (l.take n)) ha hone
        rw [hstep]
        refine ⟨t1, ?_, ?_⟩
        · rw [t3, h3, hfc]
        · rw [h3, hfc]
      · intro hgt
        have hto : toInt8 ((rcRun (freshCtx p) (l.take n)).refcnt - 1)
            = (rcRun (freshCtx p) (l.take n)).refcnt - 1 :=
          toInt8_eq_self _ (by omega) (by omega)
        have hne : toInt8 ((rcRun (freshCtx p) (l.take n)).refcnt - 1) ≠ 0 := by
          rw [hto]
          omega
        rw [hstep, unrefOp_live ok _ ha hne]
        exact ⟨ha, rfl, hto⟩
    · constructor
      · intro hone
        rw [hd2] at hone
        exact absurd hone (by omega)
      · intro hgt
        rw [hd2] at hgt
        exact absurd hgt (by omega)

/-- Witness for the amended C8: the history ref, ref, unref, unref. -/
theorem claim_C8_amended_witness :
    (∀ n, n ≤ ([RcOp.ref, RcOp.ref, RcOp.unref true, RcOp.unref true] : List RcOp).length →
      unrefCount ([RcOp.ref, RcOp.ref, RcOp.unref true, RcOp.unref true].take n)
        ≤ refCount ([RcOp.ref, RcOp.ref, RcOp.unref true, RcOp.unref true].take n)) ∧
    (rcRun (freshCtx ⟨TcpState.ESTABLISHED, false, 0, 0, 0⟩)
        [RcOp.ref, RcOp.ref, RcOp.unref true, RcOp.unref true]).trace.count
      StackCall.discardCb ≤ 1 := by
  have h := claim_C8_amended ⟨TcpState.ESTABLISHED, false, 0, 0, 0⟩
      [RcOp.ref, RcOp.ref, RcOp.unref true, RcOp.unref true] (by decide) (by decide)
  exact ⟨by decide, h.2.1⟩

theorem memBackoff_cons (a : WRec) (recs : List WRec)
    (hhead : ∀ b, recs.head? = some b →
      (a.res = TcpErr.ERR_MEM → b.scale = a.scale + 1 ∧ a.scale < 4))
    (hrest : memBackoff recs) : memBackoff (a :: recs) := by
  cases recs with
  | nil => trivial
  | cons b rest => exact ⟨hhead b rfl, hrest⟩

/-- C6 counterexample: one `_write_some` pass with 4 bytes to send, a
4-byte window throughout, and the stack answering ERR_MEM, ERR_MEM,
ERR_OK.  The attempted chunk sizes are 4, 2, 4: after the second
memory-pressure error the attempted chunk is 4, not half of the previous
attempt 2, because the halving is skipped whenever it would not leave the
chunk above 2^scale. -/
theorem claim_C6_counterexample :
    ((writeSome true 4 [⟨false, 4, TcpErr.ERR_MEM⟩, ⟨false, 4, TcpErr.ERR_MEM⟩,
        ⟨false, 4, TcpErr.ERR_OK⟩]).recs.map fun r => r.chunk) = [4, 2, 4] ∧
    ((writeSome true 4 [⟨false, 4, TcpErr.ERR_MEM⟩, ⟨false, 4, TcpErr.ERR_MEM⟩,
        ⟨false, 4, TcpErr.ERR_OK⟩]).recs.map fun r => r.res)
      = [TcpErr.ERR_MEM, TcpErr.ERR_MEM, TcpErr.ERR_OK] ∧
    ¬(((writeSome true 4 [⟨false, 4, TcpErr.ERR_MEM⟩, ⟨false, 4, TcpErr.ERR_MEM⟩,
        ⟨false, 4, TcpErr.ERR_OK⟩]).recs.map fun r => r.chunk).getD 2 0
      = (((writeSome true 4 [⟨false, 4, TcpErr.ERR_MEM⟩, ⟨false, 4, TcpErr.ERR_MEM⟩,
        ⟨false, 4, TcpErr.ERR_OK⟩]).recs.map fun r => r.chunk).getD 1 0) / 2) := by
  refine ⟨?_, ?_, ?_⟩ <;> decide

/-- C6 (amended): in every `_write_some` iteration the attempted chunk is
min(window, remaining) shifted right by the current back-off exponent
precisely when the min exceeds 2^exponent (otherwise left unshifted, so a
small chunk is not halved further); the more-data flag is set exactly when
the chunk is smaller than the remaining bytes; each memory-pressure error
increments the exponent by one and only an exponent below 4 lets the pass
continue, so the exponent never exceeds 4 — at most 4 successive
reductions before the pass gives up. -/
theorem claim_C6_amended (sync : Bool) (datalen : Nat) (env : List WIter)
    (written scale : Nat) (has_written : Bool) (hscale : scale ≤ 4) :
    (∀ r ∈ (writeSomeLoop sync datalen env written scale has_written).recs,
      r.chunk = nextChunkSize r.sndbuf r.remaining r.scale ∧
      r.chunk ≠ 0 ∧
      r.more = decide (r.chunk < r.remaining) ∧
      r.copy = !sync ∧
      r.scale ≤ 4) ∧
    memBackoff (writeSomeLoop sync datalen env written scale has_written).recs ∧
    (∀ r, (writeSomeLoop sync datalen env written scale has_written).recs.head?
        = some r → r.scale = scale) := by
  induction env generalizing written scale has_written with
  | nil =>
    simp [writeSomeLoop, memBackoff]
  | cons it env ih =>
    obtain ⟨closed, sndbuf, res⟩ := it
    by_cases hw : written < datalen
    · cases closed with
      | true =>
        simp [writeSomeLoop, hw, memBackoff]
      | false =>
        by_cases hchunk : nextChunkSize sndbuf (datalen - written) scale = 0
        · simp [writeSomeLoop, hw, hchunk, memBackoff]
        · cases res with
          | ERR_OK =>
            obtain ⟨ih1, ih2, ih3⟩ :=
              ih (written + nextChunkSize sndbuf (datalen - written) scale) scale true hscale
            refine ⟨?_, ?_, ?_⟩
            · intro r hr
              simp only [writeSomeLoop, if_pos hw, hchunk] at hr
              simp only [Bool.false_eq_true, if_false, if_neg hchunk] at hr
              rcases List.mem_cons.mp hr with rfl | hr2
              · exact ⟨rfl, hchunk, rfl, rfl, hscale⟩
              · exact ih1 r hr2
            · simp only [writeSomeLoop, if_pos hw]
              simp only [Bool.false_eq_true, if_false, if_neg hchunk]
              refine memBackoff_cons _ _ ?_ ih2
              intro b hb hmem
              exact absurd hmem (by simp)
            · intro r hr
              simp only [writeSomeLoop, if_pos hw] at hr
              simp only [Bool.false_eq_true, if_false, if_neg hchunk] at hr
              simp only [List.head?_cons, Option.some.injEq] at hr
              rw [← hr]
          | ERR_MEM =>
            by_cases hs4 : scale < 4
            · obtain ⟨ih1, ih2, ih3⟩ := ih written (scale + 1) has_written (by omega)
              refine ⟨?_, ?_, ?_⟩
              · intro r hr
                simp only [writeSomeLoop, if_pos hw] at hr
                simp only [Bool.false_eq_true, if_false, if_neg hchunk, if_pos hs4] at hr
                rcases List.mem_cons.mp hr with rfl | hr2
                · exact ⟨rfl, hchunk, rfl, rfl, hscale⟩
                · exact ih1 r hr2
              · simp only [writeSomeLoop, if_pos hw]
                simp only [Bool.false_eq_true, if_false, if_neg hchunk, if_pos hs4]
                refine memBackoff_cons _ _ ?_ ih2
                intro b hb _
                exact ⟨ih3 b hb, hs4⟩
              · intro r hr
                simp only [writeSomeLoop, if_pos hw] at hr
                simp only [Bool.false_eq_true, if_false, if_neg hchunk, if_pos hs4] at hr
                simp only [List.head?_cons, Option.some.injEq] at hr
                rw [← hr]
            · refine ⟨?_, ?_, ?_⟩
              · intro r hr
                simp only [writeSomeLoop, if_pos hw] at hr
                simp only [Bool.false_eq_true, if_false, if_neg hchunk, if_neg hs4] at hr
                rcases List.mem_cons.mp hr with rfl | hr2
                · exact ⟨rfl, hchunk, rfl, rfl, hscale⟩
                · simp at hr2
              · simp only [writeSomeLoop, if_pos hw]
                simp only [Bool.false_eq_true, if_false, if_neg hchunk, if_neg hs4]
                trivial
              · intro r hr
                simp only [writeSomeLoop, if_pos hw] at hr
                simp only [Bool.false_eq_true, if_false, if_neg hchunk, if_neg hs4] at hr
                simp only [List.head?_cons, Option.some.injEq] at hr
                rw [← hr]
          | ERR_ABRT =>
            refine ⟨?_, ?_, ?_⟩
            · intro r hr
              simp only [writeSomeLoop, if_pos hw] at hr
              simp only [Bool.false_eq_true, if_false, if_neg hchunk] at hr
              rcases List.mem_cons.mp hr with rfl | hr2
              · exact ⟨rfl, hchunk, rfl, rfl, hscale⟩
              · simp at hr2
            · simp only [writeSomeLoop, if_pos hw]
              simp only [Bool.false_eq_true, if_false, if_neg hchunk]
              trivial
            · intro r hr
              simp only [writeSomeLoop, if_pos hw] at hr
              simp only [Bool.false_eq_true, if_false, if_neg hchunk] at hr
              simp only [List.head?_cons, Option.some.injEq] at hr
              rw [← hr]
          | ERR_OTHER =>
            refine ⟨?_, ?_, ?_⟩
            · intro r hr
              simp only [writeSomeLoop, if_pos hw] at hr
              simp only [Bool.false_eq_true, if_false, if_neg hchunk] at hr
              rcases List.mem_cons.mp hr with rfl | hr2
              · exact ⟨rfl, hchunk, rfl, rfl, hscale⟩
              · simp at hr2
            · simp only [writeSomeLoop, if_pos hw]
              simp only [Bool.false_eq_true, if_false, if_neg hchunk]
              trivial
            · intro r hr
              simp only [writeSomeLoop, if_pos hw] at hr
              simp only [Bool.false_eq_true, if_false, if_neg hchunk] at hr
              simp only [List.head?_cons, Option.some.injEq] at hr
              rw [← hr]
    · simp [writeSomeLoop, hw, memBackoff]

/-- Witness for the amended C6 on the counterexample environment. -/
theorem claim_C6_amended_witness :
    (0 : Nat) ≤ 4 ∧
    memBackoff (writeSomeLoop true 4 [⟨false, 4, TcpErr.ERR_MEM⟩,
      ⟨false, 4, TcpErr.ERR_OK⟩] 0 0 false).recs :=
  ⟨by decide, (claim_C6_amended true 4 [⟨false, 4, TcpErr.ERR_MEM⟩,
      ⟨false, 4, TcpErr.ERR_OK⟩] 0 0 false (by decide)).2.1⟩

end CC
